import Mathlib

/-!
Verification of the response-extraction pipeline of the leadFinder
repository (src/services/geminiService.ts).

The pipeline turns the raw text answer of the upstream generative model
into a validated list of business records:

  1. empty raw text returns an empty list;
  2. markdown code fences are stripped by two global regex replaces
     (first the literal pattern of three backticks followed by the tag
     json and an optional newline, then bare triple backticks), and the
     result is trimmed;
  3. the text is truncated to the span from the first opening square
     bracket to the last closing square bracket when both exist in
     order, otherwise to the analogous curly-brace span, otherwise left
     as is;
  4. the truncated text is parsed as JSON; on failure the (truncated)
     text is searched, case-insensitively, for refusal phrases to decide
     between a criteria-too-strict error and a malformed-response error;
  5. a parsed array is mapped through field-by-field sanitization, a
     parsed object is wrapped as a one-element list, any other JSON
     shape yields the empty list;
  6. records whose name, phone or website equals the sentinel "N/A" are
     filtered out; the address field is exempt;
  7. an outer handler re-signals errors as a generic fetch-failed
     message unless the message is non-empty and contains one of the two
     distinguished substrings, in which case it passes unchanged.

JSON.parse itself is external to the repository, so the pipeline is
parameterized by an arbitrary parse function; a small concrete JSON
parser (jparse) is provided to evaluate the pipeline on concrete
inputs.  Strings are modelled as lists of characters (the difference
between UTF-16 code units and code points is immaterial for every claim
considered here, as is full-Unicode case folding: the refusal phrases
are ASCII).
-/

namespace LeadFinder

/-- Business record, from src/types.ts: four string fields. -/
structure BusinessResult where
  name : String
  phone : String
  address : String
  website : String
deriving DecidableEq, Repr

/-- Shape of values produced by JSON parsing. -/
inductive Json where
  | null : Json
  | bool : Bool → Json
  | num : Int → Json
  | str : String → Json
  | arr : List Json → Json
  | obj : List (String × Json) → Json

/-- Property lookup on a parsed JSON object.  JSON.parse keeps the last
binding of a duplicated key, so the fold lets later bindings win. -/
def jlookup (k : String) (fs : List (String × Json)) : Option Json :=
  fs.foldl (fun acc p => if p.1 = k then some p.2 else acc) none

/-- Keep a field when it is a string, otherwise the sentinel.  Models
the expression that tests typeof item.field for the string type. -/
def strOrNA : Option Json → String
  | some (Json.str s) => s
  | _ => "N/A"

/-- The all-sentinel record produced for non-object items. -/
def allNA : BusinessResult :=
  ⟨"N/A", "N/A", "N/A", "N/A"⟩

/-- sanitizeResult from geminiService.ts.  A JSON object keeps each of
its four fields when the field is a string and gets the sentinel
otherwise; every other JSON value yields the all-sentinel record.
(In JavaScript an array passes the typeof test but all four property
lookups give undefined, so it also produces the all-sentinel record;
the catch-all branch reflects that.) -/
def sanitizeResult : Json → BusinessResult
  | Json.obj fs =>
      { name := strOrNA (jlookup "name" fs)
        phone := strOrNA (jlookup "phone" fs)
        address := strOrNA (jlookup "address" fs)
        website := strOrNA (jlookup "website" fs) }
  | _ => allNA

/-- Re-encode a record as the JSON object it denotes. -/
def recordToJson (r : BusinessResult) : Json :=
  Json.obj [("name", Json.str r.name), ("phone", Json.str r.phone),
            ("address", Json.str r.address), ("website", Json.str r.website)]

/-- The strict filter predicate of fetchBusinessData: name, phone and
website must all differ from the sentinel; address is not inspected. -/
def keepRecord (r : BusinessResult) : Bool :=
  r.name != "N/A" && r.phone != "N/A" && r.website != "N/A"

/-- Normalization of the parsed JSON value: an array is mapped through
sanitization, a single object is wrapped, anything else is empty. -/
def normalize : Json → List BusinessResult
  | Json.arr xs => xs.map sanitizeResult
  | Json.obj fs => [sanitizeResult (Json.obj fs)]
  | _ => []

/-- Whitespace recognized by trim (the characters relevant here). -/
def isWs (c : Char) : Bool :=
  c = ' ' || c = '\t' || c = '\n' || c = '\r'

/-- Trim whitespace from both ends, as String.prototype.trim does. -/
def trimL (l : List Char) : List Char :=
  ((l.dropWhile isWs).reverse.dropWhile isWs).reverse

/-- First global replace of the cleanup: delete every occurrence of
three backticks followed by the tag json and a greedy optional
newline.  The scan is left to right and does not rescan the text
around a deleted occurrence, as a global regex replace does. -/
def rjf : List Char → List Char
  | '`' :: '`' :: '`' :: 'j' :: 's' :: 'o' :: 'n' :: '\n' :: rest => rjf rest
  | '`' :: '`' :: '`' :: 'j' :: 's' :: 'o' :: 'n' :: rest => rjf rest
  | c :: cs => c :: rjf cs
  | [] => []

/-- Second global replace of the cleanup: delete every occurrence of
three consecutive backticks, scanning left to right without rescan. -/
def rt : List Char → List Char
  | '`' :: '`' :: '`' :: cs => rt cs
  | c :: cs => c :: rt cs
  | [] => []

/-- The whole cleanup line: both replaces followed by trim. -/
def cleanupL (l : List Char) : List Char :=
  trimL (rt (rjf l))

/-- Index of the first occurrence of a character (String.indexOf). -/
def firstIdx (c : Char) : List Char → Option Nat
  | [] => none
  | x :: xs => if x = c then some 0 else (firstIdx c xs).map (· + 1)

/-- Index of the last occurrence of a character (String.lastIndexOf). -/
def lastIdx (c : Char) : List Char → Option Nat
  | [] => none
  | x :: xs =>
      match lastIdx c xs with
      | some k => some (k + 1)
      | none => if x = c then some 0 else none

/-- Inclusive span of the text between two indices, the translation of
text.substring(i, j + 1). -/
def sliceTo (l : List Char) (i j : Nat) : List Char :=
  (l.drop i).take (j + 1 - i)

/-- Fallback truncation to the curly-brace span for a single-object
response; if no such span exists the text is left unchanged. -/
def truncCurly (l : List Char) : List Char :=
  match firstIdx '\x7b' l, lastIdx '\x7d' l with
  | some i, some j => if i < j then sliceTo l i j else l
  | _, _ => l

/-- Truncation to the square-bracket span when the first opening and
last closing bracket exist in order, otherwise the curly fallback. -/
def truncateL (l : List Char) : List Char :=
  match firstIdx '[' l, lastIdx ']' l with
  | some i, some j => if i < j then sliceTo l i j else truncCurly l
  | _, _ => truncCurly l

/-- Substring test: some suffix of the text starts with the pattern.
Models String.prototype.includes. -/
def listContains (l pat : List Char) : Bool :=
  l.tails.any (fun t => pat.isPrefixOf t)

/-- Lower-cased copy of the text, used for the case-insensitive refusal
check (the phrases searched for are ASCII). -/
def toLowerL (l : List Char) : List Char :=
  l.map Char.toLower

/-- First refusal phrase tested by the parse-failure handler. -/
def phraseUnable : List Char :=
  "unable to fulfill".data

/-- Second refusal phrase tested by the parse-failure handler. -/
def phraseCannot : List Char :=
  "cannot confidently provide".data

/-- Refusal detection on the text that failed to parse. -/
def refusalCheck (l : List Char) : Bool :=
  listContains (toLowerL l) phraseUnable || listContains (toLowerL l) phraseCannot

/-- Message of the criteria-too-strict error. -/
def criteriaMsg : String :=
  "Criteria too strict. The AI could not find enough matching businesses. Please try relaxing your advanced filters (e.g., \x27Years in Operation\x27)."

/-- Message of the malformed-response error. -/
def malformedMsg : String :=
  "Received malformed data from AI. Please try again or relax your search filters."

/-- Message of the generic fetch-failed error. -/
def fetchFailedMsg : String :=
  "Failed to fetch business data. Please try again."

/-- Body of the inner try block of fetchBusinessData, applied to the
already cleaned-up and truncated text: the guard for an empty string,
the JSON parse, normalization, filtering, and the two parse errors. -/
def extractBody (parse : List Char → Option Json) (s : List Char) :
    Except String (List BusinessResult) :=
  if s.isEmpty then Except.ok []
  else
    match parse s with
    | some parsed => Except.ok ((normalize parsed).filter keepRecord)
    | none =>
        if refusalCheck s then Except.error criteriaMsg
        else Except.error malformedMsg

/-- The extraction pipeline of fetchBusinessData, from the arrival of
the response text to the returned list or thrown parse error.  The
JSON parser is a parameter: JSON.parse is external to the repository. -/
def extract (parse : List Char → Option Json) (text : String) :
    Except String (List BusinessResult) :=
  if text.data.isEmpty then Except.ok []
  else extractBody parse (truncateL (cleanupL text.data))

/-- Skip JSON insignificant whitespace. -/
def skipWs (l : List Char) : List Char :=
  l.dropWhile isWs

/-- Body of a JSON string after the opening quote: the characters up to
the closing quote (escape sequences are not needed by any concrete
input used below). -/
def jstringRaw (l : List Char) : Option (String × List Char) :=
  match l.dropWhile (fun c => !(c = '"')) with
  | '"' :: r => some (String.mk (l.takeWhile (fun c => !(c = '"'))), r)
  | _ => none

/-- Run of decimal digits with its value. -/
def digitsRun (l : List Char) : Option (Nat × List Char) :=
  let ds := l.takeWhile Char.isDigit
  if ds.isEmpty then none
  else some (ds.foldl (fun a c => a * 10 + (c.toNat - 48)) 0,
             l.dropWhile Char.isDigit)

/-- Integer literal with optional leading minus sign. -/
def jnumFrom (l : List Char) : Option (Json × List Char) :=
  match l with
  | '-' :: r => (digitsRun r).map (fun p => (Json.num (-(p.1 : Int)), p.2))
  | _ => (digitsRun l).map (fun p => (Json.num (p.1 : Int), p.2))

/-- Parsing mode: a single value, the remaining items of an array, or
the remaining members of an object. -/
inductive PMode where
  | val : PMode
  | arrItems : List Json → PMode
  | objItems : List (String × Json) → PMode

/-- Fuel-driven recursive JSON parser core.  Structural recursion on
the fuel keeps every concrete run kernel-reducible. -/
def jrun : Nat → PMode → List Char → Option (Json × List Char)
  | 0, _, _ => none
  | n + 1, PMode.val, l =>
      match skipWs l with
      | [] => none
      | c :: rest =>
          if c = '"' then
            (jstringRaw rest).map (fun p => (Json.str p.1, p.2))
          else if c = '[' then
            match skipWs rest with
            | ']' :: r => some (Json.arr [], r)
            | r => jrun n (PMode.arrItems []) r
          else if c = '\x7b' then
            match skipWs rest with
            | '\x7d' :: r => some (Json.obj [], r)
            | r => jrun n (PMode.objItems []) r
          else if c = 't' then
            if "rue".data.isPrefixOf rest then some (Json.bool true, rest.drop 3)
            else none
          else if c = 'f' then
            if "alse".data.isPrefixOf rest then some (Json.bool false, rest.drop 4)
            else none
          else if c = 'n' then
            if "ull".data.isPrefixOf rest then some (Json.null, rest.drop 3)
            else none
          else if c = '-' || c.isDigit then jnumFrom (c :: rest)
          else none
  | n + 1, PMode.arrItems acc, l =>
      match jrun n PMode.val l with
      | none => none
      | some (v, r) =>
          match skipWs r with
          | ',' :: r2 => jrun n (PMode.arrItems (acc ++ [v])) r2
          | ']' :: r2 => some (Json.arr (acc ++ [v]), r2)
          | _ => none
  | n + 1, PMode.objItems acc, l =>
      match skipWs l with
      | '"' :: r =>
          match jstringRaw r with
          | none => none
          | some (k, r2) =>
              match skipWs r2 with
              | ':' :: r3 =>
                  match jrun n PMode.val r3 with
                  | none => none
                  | some (v, r4) =>
                      match skipWs r4 with
                      | ',' :: r5 => jrun n (PMode.objItems (acc ++ [(k, v)])) r5
                      | '\x7d' :: r5 => some (Json.obj (acc ++ [(k, v)]), r5)
                      | _ => none
              | _ => none
      | _ => none

/-- Concrete JSON parser used to evaluate the pipeline on concrete
inputs; a value parses only when the whole input is consumed, as with
JSON.parse. -/
def jparse (l : List Char) : Option Json :=
  match jrun (2 * l.length + 4) PMode.val l with
  | some (v, r) => if (skipWs r).isEmpty then some v else none
  | none => none

/-- The outer catch handler: an error message passes through unchanged
when it is non-empty (truthy) and contains one of the two
distinguished substrings, and is replaced by the generic message
otherwise. -/
def wrapMsg (m : String) : String :=
  if !m.data.isEmpty && (listContains m.data "Criteria too strict".data ||
      listContains m.data "malformed data".data) then m
  else fetchFailedMsg

/-- Whole fetchBusinessData run: the upstream call either fails with a
transport error message or yields a text that goes through the
extraction pipeline; every error is filtered through the outer catch
handler. -/
def fetchModel (parse : List Char → Option Json)
    (upstream : Except String String) : Except String (List BusinessResult) :=
  match upstream with
  | Except.error e => Except.error (wrapMsg e)
  | Except.ok text =>
      match extract parse text with
      | Except.ok rs => Except.ok rs
      | Except.error m => Except.error (wrapMsg m)

/-! ### Helper lemmas about the cleanup scans -/

/-- The literal scanned for by the first replace, without the optional
newline. -/
def fenceJson : List Char := "```json".data

/-- The literal scanned for by the second replace. -/
def tick3 : List Char := ['`', '`', '`']

/-- The characters appended to a wrapped text by closing a fence. -/
def nlTick3 : List Char := '\n' :: tick3

theorem rjf_cons_default {c : Char} {cs : List Char}
    (h : ¬ fenceJson <+: c :: cs) : rjf (c :: cs) = c :: rjf cs := by
  conv_lhs => rw [rjf.eq_def]
  split
  · rename_i rest heq
    exact absurd ⟨'\n' :: rest, by rw [heq]; rfl⟩ h
  · rename_i rest hnl heq
    exact absurd ⟨rest, by rw [heq]; rfl⟩ h
  · rename_i hn1 hn2 c2 cs2 heq
    rw [List.cons.injEq] at heq
    rw [heq.1, heq.2]
  · rename_i heq
    cases heq

theorem rt_cons_default {c : Char} {cs : List Char}
    (h : ¬ tick3 <+: c :: cs) : rt (c :: cs) = c :: rt cs := by
  conv_lhs => rw [rt.eq_def]
  split
  · rename_i rest heq
    exact absurd ⟨rest, by rw [heq]; rfl⟩ h
  · rename_i hn1 c2 cs2 heq
    rw [List.cons.injEq] at heq
    rw [heq.1, heq.2]
  · rename_i heq
    cases heq

/-- A pattern that contains no newline cannot reach across a newline:
if it is a prefix of a text that continues with a newline, it already
is a prefix of the part before the newline. -/
theorem prefix_no_nl {p : List Char} (hp : '\n' ∉ p) :
    ∀ {l s : List Char}, p <+: l ++ '\n' :: s → p <+: l := by
  induction p with
  | nil => intro l s _; exact List.nil_prefix
  | cons a p ih =>
    intro l s h
    cases l with
    | nil =>
      rw [List.nil_append, List.cons_prefix_cons] at h
      exact absurd (h.1 ▸ List.mem_cons_self a p) hp
    | cons b l =>
      rw [List.cons_append, List.cons_prefix_cons] at h
      exact List.cons_prefix_cons.mpr
        ⟨h.1, ih (fun hm => hp (List.mem_cons_of_mem a hm)) h.2⟩

theorem not_fence_prefix_of_h7 {c : Char} {cs : List Char}
    (h7 : ∀ rest : List Char,
      c = '`' → cs = '`' :: '`' :: 'j' :: 's' :: 'o' :: 'n' :: rest → False) :
    ¬ fenceJson <+: c :: cs := by
  rintro ⟨t, ht⟩
  rw [show fenceJson ++ t = '`' :: '`' :: '`' :: 'j' :: 's' :: 'o' :: 'n' :: t
    from rfl] at ht
  injection ht with h1 h2
  exact h7 t h1.symm h2.symm

theorem not_tick3_prefix_of_h {c : Char} {cs : List Char}
    (h : ∀ rest : List Char, c = '`' → cs = '`' :: '`' :: rest → False) :
    ¬ tick3 <+: c :: cs := by
  rintro ⟨t, ht⟩
  rw [show tick3 ++ t = '`' :: '`' :: '`' :: t from rfl] at ht
  injection ht with h1 h2
  exact h t h1.symm h2.symm

theorem not_fence_prefix_cons {c : Char} (hc : c ≠ '`') (cs : List Char) :
    ¬ fenceJson <+: c :: cs := by
  rintro ⟨t, ht⟩
  rw [show fenceJson ++ t = '`' :: '`' :: '`' :: 'j' :: 's' :: 'o' :: 'n' :: t
    from rfl] at ht
  injection ht with h1 _
  exact hc h1.symm

theorem not_tick3_prefix_cons {c : Char} (hc : c ≠ '`') (cs : List Char) :
    ¬ tick3 <+: c :: cs := by
  rintro ⟨t, ht⟩
  rw [show tick3 ++ t = '`' :: '`' :: '`' :: t from rfl] at ht
  injection ht with h1 _
  exact hc h1.symm

/-- The first replace deletes the seven-character fence literal even
when no newline follows it. -/
theorem rjf_step7 {c : Char} (hc : c ≠ '\n') (cs : List Char) :
    rjf ('`' :: '`' :: '`' :: 'j' :: 's' :: 'o' :: 'n' :: c :: cs) = rjf (c :: cs) := by
  conv_lhs => rw [rjf.eq_def]
  split
  · rename_i x rest heq
    simp only [List.cons.injEq] at heq
    exact absurd heq.2.2.2.2.2.2.2.1 hc
  · rename_i x rest hnl heq
    simp only [List.cons.injEq] at heq
    rw [← heq.2.2.2.2.2.2.2]
  · rename_i x c2 cs2 hx1 hx2 heq
    simp only [List.cons.injEq] at heq
    exact (hx2 (c :: cs) heq.1.symm heq.2.symm).elim
  · rename_i x heq
    cases heq

/-- Appending a closing fence to a text changes the first replace only
at the very end: either the newline and the backticks survive, or
(exactly when the text ends in the seven-character fence literal, whose
match swallows the appended newline) the bare backticks survive. -/
theorem rjf_append_fence (l : List Char) :
    rjf (l ++ nlTick3) = rjf l ++ nlTick3 ∨
    rjf (l ++ nlTick3) = rjf l ++ tick3 := by
  induction l using rjf.induct with
  | case1 rest ih =>
    rw [show ('`' :: '`' :: '`' :: 'j' :: 's' :: 'o' :: 'n' :: '\n' :: rest) ++ nlTick3
        = '`' :: '`' :: '`' :: 'j' :: 's' :: 'o' :: 'n' :: '\n' :: (rest ++ nlTick3) from rfl]
    rw [show rjf ('`' :: '`' :: '`' :: 'j' :: 's' :: 'o' :: 'n' :: '\n' :: (rest ++ nlTick3))
        = rjf (rest ++ nlTick3) from rfl]
    rw [show rjf ('`' :: '`' :: '`' :: 'j' :: 's' :: 'o' :: 'n' :: '\n' :: rest)
        = rjf rest from rfl]
    exact ih
  | case2 rest hnl ih =>
    cases rest with
    | nil => exact Or.inr rfl
    | cons c cs =>
      have hc : c ≠ '\n' := fun hcn => hnl cs (by rw [hcn])
      rw [show ('`' :: '`' :: '`' :: 'j' :: 's' :: 'o' :: 'n' :: c :: cs) ++ nlTick3
          = '`' :: '`' :: '`' :: 'j' :: 's' :: 'o' :: 'n' :: c :: (cs ++ nlTick3) from rfl]
      rw [rjf_step7 hc (cs ++ nlTick3), rjf_step7 hc cs]
      rw [show c :: (cs ++ nlTick3) = (c :: cs) ++ nlTick3 from rfl]
      exact ih
  | case3 c cs h8 h7 ih =>
    have hnp : ¬ fenceJson <+: c :: cs := not_fence_prefix_of_h7 h7
    have hnp2 : ¬ fenceJson <+: c :: (cs ++ nlTick3) := by
      intro hpre
      exact hnp (prefix_no_nl (by decide) (l := c :: cs)
        (by rw [show (c :: cs) ++ '\n' :: tick3 = c :: (cs ++ nlTick3) from rfl]
            exact hpre))
    rw [show (c :: cs) ++ nlTick3 = c :: (cs ++ nlTick3) from rfl]
    rw [rjf_cons_default hnp2, rjf_cons_default hnp]
    rcases ih with h | h
    · exact Or.inl (by rw [h]; rfl)
    · exact Or.inr (by rw [h]; rfl)
  | case4 => exact Or.inl rfl

/-- The second replace deletes three consecutive backticks. -/
theorem rt_step3 (cs : List Char) : rt ('`' :: '`' :: '`' :: cs) = rt cs := rfl

/-- The second replace distributes over a newline barrier: no backtick
run can span it. -/
theorem rt_append_nl (x s : List Char) :
    rt (x ++ '\n' :: s) = rt x ++ '\n' :: rt s := by
  induction x using rt.induct with
  | case1 cs ih =>
    rw [show ('`' :: '`' :: '`' :: cs) ++ '\n' :: s
        = '`' :: '`' :: '`' :: (cs ++ '\n' :: s) from rfl, rt_step3, rt_step3, ih]
  | case2 c cs hx ih =>
    have hnp : ¬ tick3 <+: c :: cs := not_tick3_prefix_of_h hx
    have hnp2 : ¬ tick3 <+: c :: (cs ++ '\n' :: s) := by
      intro hpre
      exact hnp (prefix_no_nl (by decide) (l := c :: cs)
        (by rw [show (c :: cs) ++ '\n' :: s = c :: (cs ++ '\n' :: s) from rfl]
            exact hpre))
    rw [show (c :: cs) ++ '\n' :: s = c :: (cs ++ '\n' :: s) from rfl,
        rt_cons_default hnp2, rt_cons_default hnp, ih, List.cons_append]
  | case3 =>
    rw [List.nil_append, rt_cons_default (not_tick3_prefix_cons (by decide) s),
        show rt ([] : List Char) = [] from rfl, List.nil_append]

/-- Appending three backticks to a text does not change the second
replace: the appended backticks merge with whatever run of backticks
ends the text, and three more backticks in a run leave its residue
unchanged. -/
theorem rt_append_tick3 (x : List Char) : rt (x ++ tick3) = rt x := by
  induction x using rt.induct with
  | case1 cs ih =>
    rw [show ('`' :: '`' :: '`' :: cs) ++ tick3
        = '`' :: '`' :: '`' :: (cs ++ tick3) from rfl, rt_step3, rt_step3, ih]
  | case2 c cs hx ih =>
    have hnp : ¬ tick3 <+: c :: cs := not_tick3_prefix_of_h hx
    by_cases htp : tick3 <+: c :: (cs ++ tick3)
    · rcases htp with ⟨t, ht⟩
      rw [show tick3 ++ t = '`' :: '`' :: '`' :: t from rfl] at ht
      injection ht with h1 h2
      cases cs with
      | nil => rw [← h1]; rfl
      | cons d ds =>
        cases ds with
        | nil =>
          injection h2 with h3 h4
          rw [← h1, ← h3]; rfl
        | cons e es =>
          injection h2 with h3 h5
          injection h5 with h4 h6
          exact absurd ⟨es, by
            rw [show tick3 ++ es = '`' :: '`' :: '`' :: es from rfl, ← h1, ← h3, ← h4]⟩ hnp
    · rw [show (c :: cs) ++ tick3 = c :: (cs ++ tick3) from rfl,
          rt_cons_default htp, rt_cons_default hnp, ih]
  | case3 => rfl

/-- The first replace leaves a backtick-free text alone and continues
past it: no fence occurrence can start inside it. -/
theorem rjf_append_no_tick {l : List Char} (h : '`' ∉ l) (s : List Char) :
    rjf (l ++ s) = l ++ rjf s := by
  induction l with
  | nil => rfl
  | cons c cs ih =>
    have hc : c ≠ '`' := fun hcc => h (hcc ▸ List.mem_cons_self c cs)
    rw [List.cons_append, rjf_cons_default (not_fence_prefix_cons hc _),
        ih (fun hm => h (List.mem_cons_of_mem c hm)), List.cons_append]

/-- The second replace leaves a backtick-free text alone likewise. -/
theorem rt_append_no_tick {l : List Char} (h : '`' ∉ l) (s : List Char) :
    rt (l ++ s) = l ++ rt s := by
  induction l with
  | nil => rfl
  | cons c cs ih =>
    have hc : c ≠ '`' := fun hcc => h (hcc ▸ List.mem_cons_self c cs)
    rw [List.cons_append, rt_cons_default (not_tick3_prefix_cons hc _),
        ih (fun hm => h (List.mem_cons_of_mem c hm)), List.cons_append]

/-- Trailing whitespace is absorbed by trim. -/
theorem trimL_append_nl (l : List Char) : trimL (l ++ ['\n']) = trimL l := by
  unfold trimL
  rw [List.dropWhile_append]
  by_cases he : (l.dropWhile isWs).isEmpty
  · rw [if_pos he, show List.dropWhile isWs ['\n'] = [] from rfl]
    rw [List.isEmpty_iff] at he
    rw [he]
  · rw [if_neg he, List.reverse_append,
        show List.reverse ['\n'] = ['\n'] from rfl,
        show ∀ x : List Char, ['\n'] ++ x = '\n' :: x from fun x => rfl,
        show ∀ x : List Char, List.dropWhile isWs ('\n' :: x) = List.dropWhile isWs x
          from fun x => rfl]

/-- Wrapping a text in a json-tagged fence does not change the cleanup
result. -/
theorem cleanup_wrap (t : List Char) :
    cleanupL ("```json\n".data ++ t ++ nlTick3) = cleanupL t := by
  unfold cleanupL
  rw [show "```json\n".data ++ t ++ nlTick3
      = '`' :: '`' :: '`' :: 'j' :: 's' :: 'o' :: 'n' :: '\n' :: (t ++ nlTick3) from by
        rw [List.append_assoc]; rfl]
  rw [show rjf ('`' :: '`' :: '`' :: 'j' :: 's' :: 'o' :: 'n' :: '\n' :: (t ++ nlTick3))
      = rjf (t ++ nlTick3) from rfl]
  rcases rjf_append_fence t with h | h
  · rw [h, show nlTick3 = '\n' :: tick3 from rfl, rt_append_nl,
        show rt tick3 = [] from rfl,
        show ('\n' : Char) :: [] = ['\n'] from rfl, trimL_append_nl]
  · rw [h, rt_append_tick3]

/-- Two texts with equal cleanup results extract identically when both
are non-empty. -/
theorem extract_eq_of_cleanup {parse : List Char → Option Json} {a b : String}
    (ha : a.data ≠ []) (hb : b.data ≠ [])
    (h : cleanupL a.data = cleanupL b.data) :
    extract parse a = extract parse b := by
  unfold extract
  rw [if_neg (by simpa using ha), if_neg (by simpa using hb), h]

/-! ### Characterization of the first and last occurrence scans -/

theorem firstIdx_some_iff {c : Char} {l : List Char} {i : Nat} :
    firstIdx c l = some i ↔
      l[i]? = some c ∧ ∀ k, k < i → l[k]? ≠ some c := by
  induction l generalizing i with
  | nil => simp [firstIdx]
  | cons x xs ih =>
    by_cases hx : x = c
    · subst hx
      rw [firstIdx, if_pos rfl]
      constructor
      · intro h
        have h0 : i = 0 := (Option.some.inj h).symm
        subst h0
        exact ⟨by simp, fun k hk => absurd hk (by omega)⟩
      · rintro ⟨h1, hmin⟩
        cases i with
        | zero => rfl
        | succ i => exact absurd (by simp) (hmin 0 (Nat.succ_pos i))
    · rw [firstIdx, if_neg hx, Option.map_eq_some']
      constructor
      · rintro ⟨k, hk, rfl⟩
        rcases ih.mp hk with ⟨h1, h2⟩
        refine ⟨by simpa using h1, fun m hm => ?_⟩
        cases m with
        | zero => simpa using fun hh => hx hh
        | succ m =>
          rw [List.getElem?_cons_succ]
          exact h2 m (by omega)
      · rintro ⟨h1, h2⟩
        cases i with
        | zero =>
          rw [List.getElem?_cons_zero] at h1
          exact absurd (Option.some.inj h1) hx
        | succ i =>
          rw [List.getElem?_cons_succ] at h1
          refine ⟨i, ih.mpr ⟨h1, fun m hm => ?_⟩, rfl⟩
          have hm2 := h2 (m + 1) (by omega)
          rwa [List.getElem?_cons_succ] at hm2

theorem firstIdx_none_iff {c : Char} {l : List Char} :
    firstIdx c l = none ↔ c ∉ l := by
  induction l with
  | nil => simp [firstIdx]
  | cons x xs ih =>
    rw [firstIdx]
    by_cases hx : x = c
    · subst hx; simp
    · rw [if_neg hx]
      simp only [Option.map_eq_none', ih, List.mem_cons, not_or]
      exact ⟨fun h => ⟨fun hcx => hx hcx.symm, h⟩, fun h => h.2⟩

theorem lastIdx_none_iff {c : Char} {l : List Char} :
    lastIdx c l = none ↔ c ∉ l := by
  induction l with
  | nil => simp [lastIdx]
  | cons x xs ih =>
    rw [lastIdx]
    cases hxs : lastIdx c xs with
    | some m =>
      have hmem : c ∈ xs := by
        by_contra hn
        rw [ih.mpr hn] at hxs
        cases hxs
      simp [List.mem_cons, hmem]
    | none =>
      have hx : c ∉ xs := ih.mp hxs
      by_cases hxc : x = c
      · subst hxc
        rw [if_pos rfl]
        simp
      · rw [if_neg hxc]
        constructor
        · intro _
          simp only [List.mem_cons, not_or]
          exact ⟨fun hcx => hxc hcx.symm, hx⟩
        · intro _; rfl


theorem lastIdx_some_iff {c : Char} {l : List Char} {j : Nat} :
    lastIdx c l = some j ↔
      l[j]? = some c ∧ ∀ k, k < l.length → j < k → l[k]? ≠ some c := by
  induction l generalizing j with
  | nil => simp [lastIdx]
  | cons x xs ih =>
    rw [lastIdx]
    cases hxs : lastIdx c xs with
    | some m =>
      rcases ih.mp hxs with ⟨h1, h2⟩
      constructor
      · intro h
        have hj : j = m + 1 := by cases h; rfl
        subst hj
        refine ⟨by simpa using h1, fun k hk hmk => ?_⟩
        cases k with
        | zero => omega
        | succ k =>
          rw [List.getElem?_cons_succ]
          exact h2 k (by simpa using hk) (by omega)
      · rintro ⟨hj1, hj2⟩
        cases j with
        | zero =>
          have hlen : m < xs.length := (List.getElem?_eq_some_iff.mp h1).1
          exact absurd (show (x :: xs)[m + 1]? = some c by simpa using h1)
            (hj2 (m + 1) (by simpa using hlen) (Nat.succ_pos m))
        | succ j =>
          rw [List.getElem?_cons_succ] at hj1
          have hjm : j = m := by
            by_contra hne
            rcases Nat.lt_or_ge j m with hlt | hge
            · have hlenm : m < xs.length := (List.getElem?_eq_some_iff.mp h1).1
              exact hj2 (m + 1) (by simpa using hlenm) (by omega)
                (by simpa using h1)
            · have hlen : j < xs.length := (List.getElem?_eq_some_iff.mp hj1).1
              exact h2 j hlen (by omega) hj1
          rw [hjm]
    | none =>
      have hnone : c ∉ xs := lastIdx_none_iff.mp hxs
      by_cases hxc : x = c
      · subst hxc
        rw [if_pos rfl]
        constructor
        · intro h
          have hj : j = 0 := by cases h; rfl
          subst hj
          refine ⟨by simp, fun k hk h0 => ?_⟩
          cases k with
          | zero => omega
          | succ k =>
            rw [List.getElem?_cons_succ]
            exact fun hc => hnone (List.getElem?_mem hc)
        · rintro ⟨hj1, -⟩
          cases j with
          | zero => rfl
          | succ j =>
            rw [List.getElem?_cons_succ] at hj1
            exact absurd (List.getElem?_mem hj1) hnone
      · rw [if_neg hxc]
        constructor
        · intro h; cases h
        · rintro ⟨hj1, -⟩
          cases j with
          | zero =>
            rw [List.getElem?_cons_zero] at hj1
            exact absurd (Option.some.inj hj1) hxc
          | succ j =>
            rw [List.getElem?_cons_succ] at hj1
            exact absurd (List.getElem?_mem hj1) hnone

/-- A span from an occurrence of the opening character to a later
occurrence of the closing character exists in the text. -/
abbrev hasSpan (a b : Char) (l : List Char) : Prop :=
  ∃ i, i < l.length ∧ ∃ j, j < l.length ∧ i < j ∧ l[i]? = some a ∧ l[j]? = some b

/-! ### The claims -/

/-- Claim C1: every record in a successful result of the extraction
pipeline has name, phone and website all different from the sentinel,
and the filter predicate keeps any record whose name, phone and website
differ from the sentinel regardless of its address. -/
theorem claim1_filter_completeness :
    (∀ (parse : List Char → Option Json) (text : String)
        (rs : List BusinessResult) (r : BusinessResult),
        extract parse text = Except.ok rs → r ∈ rs →
        r.name ≠ "N/A" ∧ r.phone ≠ "N/A" ∧ r.website ≠ "N/A")
    ∧ (∀ r : BusinessResult,
        r.name ≠ "N/A" → r.phone ≠ "N/A" → r.website ≠ "N/A" →
        keepRecord r = true) := by
  constructor
  · intro parse text rs r hex hmem
    unfold extract at hex
    split at hex
    · cases hex; cases hmem
    · unfold extractBody at hex
      split at hex
      · cases hex; cases hmem
      · split at hex
        · cases hex
          rw [List.mem_filter] at hmem
          have hk := hmem.2
          simp only [keepRecord, Bool.and_eq_true, bne_iff_ne] at hk
          exact ⟨hk.1.1, hk.1.2, hk.2⟩
        · split at hex <;> cases hex
  · intro r h1 h2 h3
    simp only [keepRecord, Bool.and_eq_true, bne_iff_ne]
    exact ⟨⟨h1, h2⟩, h3⟩

/-- Witness for claim C1 at a concrete response: the record that the
pipeline returns for an array with one complete record (whose address
is the sentinel) and one junk element. -/
theorem claim1_witness :
    (("A" : String) ≠ "N/A" ∧ ("555" : String) ≠ "N/A" ∧ ("a.com" : String) ≠ "N/A")
    ∧ keepRecord ⟨"A", "555", "N/A", "a.com"⟩ = true :=
  ⟨claim1_filter_completeness.1 jparse
      "[\x7b\"name\":\"A\",\"phone\":\"555\",\"address\":\"N/A\",\"website\":\"a.com\"\x7d]"
      [⟨"A", "555", "N/A", "a.com"⟩] ⟨"A", "555", "N/A", "a.com"⟩ rfl
      (List.mem_singleton.mpr rfl),
   claim1_filter_completeness.2 ⟨"A", "555", "N/A", "a.com"⟩
      (by decide) (by decide) (by decide)⟩

/-- Counterexample to claim C2 as stated: the original text contains
the refusal phrase, the JSON parse of the extracted span fails, and
yet the pipeline signals the malformed-response error, because the
refusal check runs on the bracket-truncated text (here the span
between the brackets), not on the original text. -/
theorem claim2_counterexample :
    listContains (toLowerL "unable to fulfill [,]".data) phraseUnable = true
    ∧ extract jparse "unable to fulfill [,]" = Except.error malformedMsg :=
  ⟨rfl, rfl⟩

/-- Claim C2 as amended: when the JSON parse of the extracted span
fails, the pipeline inspects the fence-stripped, bracket-truncated
text (not the original text) for the refusal phrases, case
insensitively, and signals the criteria-too-strict error when one is
present and the malformed-response error otherwise.  For a text
consisting only of a refusal phrase the truncated text equals the
original, so the criteria-too-strict error is signaled. -/
theorem claim2_refusal_check_on_truncated
    (parse : List Char → Option Json) (text : String)
    (hraw : text.data ≠ [])
    (hne : truncateL (cleanupL text.data) ≠ [])
    (hfail : parse (truncateL (cleanupL text.data)) = none) :
    extract parse text =
      Except.error (if refusalCheck (truncateL (cleanupL text.data))
        then criteriaMsg else malformedMsg) := by
  unfold extract
  rw [if_neg (by simpa using hraw)]
  unfold extractBody
  rw [if_neg (by simpa using hne), hfail]
  show (if refusalCheck (truncateL (cleanupL text.data)) = true
      then Except.error criteriaMsg else Except.error malformedMsg)
    = Except.error (if refusalCheck (truncateL (cleanupL text.data)) = true
      then criteriaMsg else malformedMsg)
  split
  · rfl
  · rfl

/-- Witness for the amended claim C2: a text that is exactly a refusal
phrase fails to parse and produces the criteria-too-strict error. -/
theorem claim2_witness :
    extract jparse "unable to fulfill" = Except.error criteriaMsg := by
  have h := claim2_refusal_check_on_truncated jparse "unable to fulfill"
    (by decide) (by decide) rfl
  exact h.trans rfl

/-- Claim C3: a parsed array is sanitized element by element, a parsed
object is wrapped as a one-element list, any other parsed shape yields
the empty list; sanitization keeps each of the four fields exactly when
it is a string and replaces it with the sentinel otherwise, and any
non-object item produces the all-sentinel record. -/
theorem claim3_normalization_shapes :
    (∀ xs, normalize (Json.arr xs) = xs.map sanitizeResult)
    ∧ (∀ fs, normalize (Json.obj fs) = [sanitizeResult (Json.obj fs)])
    ∧ (normalize Json.null = [] ∧ (∀ b, normalize (Json.bool b) = [])
        ∧ (∀ n, normalize (Json.num n) = []) ∧ (∀ s, normalize (Json.str s) = []))
    ∧ (∀ fs, sanitizeResult (Json.obj fs) =
        ⟨strOrNA (jlookup "name" fs), strOrNA (jlookup "phone" fs),
         strOrNA (jlookup "address" fs), strOrNA (jlookup "website" fs)⟩)
    ∧ (∀ s, strOrNA (some (Json.str s)) = s)
    ∧ (∀ j : Json, (∀ s, j ≠ Json.str s) → strOrNA (some j) = "N/A")
    ∧ strOrNA none = "N/A"
    ∧ (∀ j : Json, (∀ fs, j ≠ Json.obj fs) → sanitizeResult j = allNA) := by
  refine ⟨fun xs => rfl, fun fs => rfl,
    ⟨rfl, fun b => rfl, fun n => rfl, fun s => rfl⟩,
    fun fs => rfl, fun s => rfl, ?_, rfl, ?_⟩
  · intro j h
    cases j with
    | str s => exact absurd rfl (h s)
    | _ => rfl
  · intro j h
    cases j with
    | obj fs => exact absurd rfl (h fs)
    | _ => rfl

/-- Witness for claim C3: the non-object branches applied to concrete
non-object values. -/
theorem claim3_witness :
    sanitizeResult (Json.num 7) = allNA
    ∧ strOrNA (some (Json.bool true)) = "N/A" :=
  ⟨claim3_normalization_shapes.2.2.2.2.2.2.2 (Json.num 7)
      (fun _ h => Json.noConfusion h),
   claim3_normalization_shapes.2.2.2.2.2.1 (Json.bool true)
      (fun _ h => Json.noConfusion h)⟩

/-- Claim C4: when the first opening square bracket precedes the last
closing square bracket the text is truncated to exactly that inclusive
span; when no such square-bracket span exists the same rule is applied
to the curly braces; and when neither span exists the text is left
untouched. -/
theorem claim4_bracket_truncation (l : List Char) :
    (∀ i j, l[i]? = some '[' → (∀ k, k < i → l[k]? ≠ some '[') →
      l[j]? = some ']' → (∀ k, k < l.length → j < k → l[k]? ≠ some ']') →
      i < j → truncateL l = sliceTo l i j)
    ∧ (¬ hasSpan '[' ']' l →
      ∀ i j, l[i]? = some '\x7b' → (∀ k, k < i → l[k]? ≠ some '\x7b') →
        l[j]? = some '\x7d' → (∀ k, k < l.length → j < k → l[k]? ≠ some '\x7d') →
        i < j → truncateL l = sliceTo l i j)
    ∧ (¬ hasSpan '[' ']' l → ¬ hasSpan '\x7b' '\x7d' l → truncateL l = l) := by
  have hcurly : ¬ hasSpan '[' ']' l → truncateL l = truncCurly l := by
    intro hno
    unfold truncateL
    cases hf : firstIdx '[' l with
    | none => rfl
    | some i =>
      cases hl : lastIdx ']' l with
      | none => rfl
      | some j =>
        rcases firstIdx_some_iff.mp hf with ⟨hi1, -⟩
        rcases lastIdx_some_iff.mp hl with ⟨hj1, -⟩
        show (if i < j then sliceTo l i j else truncCurly l) = truncCurly l
        rw [if_neg]
        intro hij
        exact hno ⟨i, (List.getElem?_eq_some_iff.mp hi1).1, j,
          (List.getElem?_eq_some_iff.mp hj1).1, hij, hi1, hj1⟩
  refine ⟨?_, ?_, ?_⟩
  · intro i j hi himin hj hjmax hij
    unfold truncateL
    rw [firstIdx_some_iff.mpr ⟨hi, himin⟩, lastIdx_some_iff.mpr ⟨hj, hjmax⟩]
    show (if i < j then sliceTo l i j else truncCurly l) = sliceTo l i j
    rw [if_pos hij]
  · intro hno i j hi himin hj hjmax hij
    rw [hcurly hno]
    unfold truncCurly
    rw [firstIdx_some_iff.mpr ⟨hi, himin⟩, lastIdx_some_iff.mpr ⟨hj, hjmax⟩]
    show (if i < j then sliceTo l i j else l) = sliceTo l i j
    rw [if_pos hij]
  · intro hno hnoc
    rw [hcurly hno]
    unfold truncCurly
    cases hf : firstIdx '\x7b' l with
    | none => rfl
    | some i =>
      cases hl : lastIdx '\x7d' l with
      | none => rfl
      | some j =>
        rcases firstIdx_some_iff.mp hf with ⟨hi1, -⟩
        rcases lastIdx_some_iff.mp hl with ⟨hj1, -⟩
        show (if i < j then sliceTo l i j else l) = l
        rw [if_neg]
        intro hij
        exact hnoc ⟨i, (List.getElem?_eq_some_iff.mp hi1).1, j,
          (List.getElem?_eq_some_iff.mp hj1).1, hij, hi1, hj1⟩

/-- Witness for claim C4: the three branches applied to concrete
texts with a bracket span, with only a brace span, and with neither. -/
theorem claim4_witness :
    truncateL "x[a]y".data = "[a]".data
    ∧ truncateL "x\x7ba\x7dy".data = "\x7ba\x7d".data
    ∧ truncateL "abc".data = "abc".data := by
  refine ⟨?_, ?_, ?_⟩
  · have h := (claim4_bracket_truncation "x[a]y".data).1 1 3
      (by decide) (by decide) (by decide) (by decide) (by decide)
    exact h.trans (by decide)
  · have h := (claim4_bracket_truncation "x\x7ba\x7dy".data).2.1 (by decide) 1 3
      (by decide) (by decide) (by decide) (by decide) (by decide)
    exact h.trans (by decide)
  · exact (claim4_bracket_truncation "abc".data).2.2 (by decide) (by decide)

/-- Counterexample to claim C5 as stated: for the language tag txt the
backticks are stripped but the tag itself is not, and the leftover tag
changes the end-to-end result (a malformed-response error instead of a
successful empty result), so fenced input with an arbitrary language
tag is not processed as if the fences were absent. -/
theorem claim5_counterexample :
    extract jparse "```txt\n1\n```" = Except.error malformedMsg
    ∧ extract jparse "1" = Except.ok [] :=
  ⟨rfl, rfl⟩

/-- Claim C5 as amended: the cleanup strips the triple-backtick
delimiters wherever they occur, but it removes a language tag only
through the literal pattern of three backticks followed by json and an
optional newline: the tag json is removed entirely, a tag beginning
with the four letters json loses exactly that prefix (the optional
newline of the pattern matches nothing), and any other tag survives in
full at the front of the cleaned text.  Hence fenced input is
processed as if the fences were absent only when the tag is json or
absent, not for an arbitrary language tag.  Stated for a fence whose
tag and body contain no backtick and whose tag contains no newline. -/
theorem claim5_fence_stripping (tag t : String)
    (htag : '`' ∉ tag.data) (hnl : '\n' ∉ tag.data) (hbody : '`' ∉ t.data) :
    cleanupL (("```" ++ tag ++ "\n" ++ t ++ "\n```").data)
      = trimL ((if "json".data <+: tag.data then tag.data.drop 4 else tag.data)
          ++ '\n' :: t.data) := by
  rw [show ("```" ++ tag ++ "\n" ++ t ++ "\n```").data
      = '`' :: '`' :: '`' :: (tag.data ++ '\n' :: (t.data ++ nlTick3))
      from by simp [String.data_append, nlTick3, tick3]]
  by_cases hj : "json".data <+: tag.data
  · rw [if_pos hj]
    obtain ⟨rest, hrest⟩ := hj
    have hdrop : tag.data.drop 4 = rest := by
      rw [← hrest, show (4 : Nat) = ("json".data).length from rfl]
      exact List.drop_left _ _
    rw [hdrop]
    have hrt : '`' ∉ rest := fun hm =>
      htag (hrest ▸ List.mem_append_right _ hm)
    have hrn : '\n' ∉ rest := fun hm =>
      hnl (hrest ▸ List.mem_append_right _ hm)
    rw [show tag.data = 'j' :: 's' :: 'o' :: 'n' :: rest from by
      rw [← hrest]; rfl]
    cases rest with
    | nil =>
      unfold cleanupL
      rw [show rjf ('`' :: '`' :: '`' ::
            (('j' :: 's' :: 'o' :: 'n' :: ([] : List Char))
              ++ '\n' :: (t.data ++ nlTick3)))
          = rjf (t.data ++ nlTick3) from rfl]
      rw [rjf_append_no_tick hbody, show rjf nlTick3 = nlTick3 from rfl,
          rt_append_no_tick hbody, show rt nlTick3 = ['\n'] from rfl,
          trimL_append_nl]
      rw [List.nil_append]
      rfl
    | cons c cs =>
      have hc : c ≠ '\n' := fun h => hrn (h ▸ List.mem_cons_self c cs)
      unfold cleanupL
      rw [show ('`' :: '`' :: '`' ::
            (('j' :: 's' :: 'o' :: 'n' :: c :: cs)
              ++ '\n' :: (t.data ++ nlTick3)))
          = '`' :: '`' :: '`' :: 'j' :: 's' :: 'o' :: 'n' :: c ::
              (cs ++ '\n' :: (t.data ++ nlTick3)) from rfl]
      rw [rjf_step7 hc]
      rw [show c :: (cs ++ '\n' :: (t.data ++ nlTick3))
          = (c :: cs) ++ '\n' :: (t.data ++ nlTick3) from rfl]
      rw [rjf_append_no_tick hrt,
          rjf_cons_default (not_fence_prefix_cons (by decide) _),
          rjf_append_no_tick hbody, show rjf nlTick3 = nlTick3 from rfl]
      rw [rt_append_no_tick hrt,
          rt_cons_default (not_tick3_prefix_cons (by decide) _),
          rt_append_no_tick hbody, show rt nlTick3 = ['\n'] from rfl]
      rw [show (c :: cs) ++ '\n' :: (t.data ++ ['\n'])
          = ((c :: cs) ++ '\n' :: t.data) ++ ['\n'] from by
            rw [List.append_assoc]; rfl]
      rw [trimL_append_nl]
  · rw [if_neg hj]
    have hpre_head : ∀ (x : Char) (xs : List Char),
        x :: xs = tag.data ++ '\n' :: (t.data ++ nlTick3) → x = '`' → False := by
      intro x xs hx hxt
      cases tg : tag.data with
      | nil =>
        rw [tg, List.nil_append] at hx
        injection hx with h1 _
        rw [hxt] at h1
        exact absurd h1 (by decide)
      | cons a as =>
        rw [tg, List.cons_append] at hx
        injection hx with h1 _
        exact htag (by rw [tg]; exact (h1.symm.trans hxt) ▸ List.mem_cons_self a as)
    have hn1 : ¬ fenceJson <+:
        ('`' :: '`' :: '`' :: (tag.data ++ '\n' :: (t.data ++ nlTick3))) := by
      rintro ⟨u, hu⟩
      rw [show fenceJson ++ u = '`' :: '`' :: '`' :: 'j' :: 's' :: 'o' :: 'n' :: u
        from rfl] at hu
      injection hu with _ h1; injection h1 with _ h2; injection h2 with _ h3
      have hjp : "json".data <+: tag.data := by
        refine prefix_no_nl (by decide) (l := tag.data) (s := t.data ++ nlTick3) ?_
        exact ⟨u, h3⟩
      exact hj hjp
    have hn2 : ¬ fenceJson <+:
        ('`' :: '`' :: (tag.data ++ '\n' :: (t.data ++ nlTick3))) := by
      rintro ⟨u, hu⟩
      rw [show fenceJson ++ u = '`' :: '`' :: '`' :: 'j' :: 's' :: 'o' :: 'n' :: u
        from rfl] at hu
      injection hu with _ h1; injection h1 with _ h2
      exact hpre_head _ _ h2 rfl
    have hn3 : ¬ fenceJson <+:
        ('`' :: (tag.data ++ '\n' :: (t.data ++ nlTick3))) := by
      rintro ⟨u, hu⟩
      rw [show fenceJson ++ u = '`' :: '`' :: '`' :: 'j' :: 's' :: 'o' :: 'n' :: u
        from rfl] at hu
      injection hu with _ h1
      exact hpre_head _ _ h1 rfl
    unfold cleanupL
    rw [rjf_cons_default hn1, rjf_cons_default hn2, rjf_cons_default hn3,
        rjf_append_no_tick htag,
        rjf_cons_default (not_fence_prefix_cons (by decide) _),
        rjf_append_no_tick hbody, show rjf nlTick3 = nlTick3 from rfl]
    rw [rt_step3, rt_append_no_tick htag,
        rt_cons_default (not_tick3_prefix_cons (by decide) _),
        rt_append_no_tick hbody, show rt nlTick3 = ['\n'] from rfl]
    rw [show tag.data ++ '\n' :: (t.data ++ ['\n'])
        = (tag.data ++ '\n' :: t.data) ++ ['\n'] from by
          rw [List.append_assoc]; rfl]
    rw [trimL_append_nl]

/-- Witness for the amended claim C5 at the three kinds of tags: a
tag without the json prefix survives in full, a tag beginning with
json loses exactly that four-letter prefix, and the json tag is
removed entirely. -/
theorem claim5_witness :
    cleanupL "```txt\n1\n```".data = trimL "txt\n1".data
    ∧ cleanupL "```json5\n1\n```".data = trimL "5\n1".data
    ∧ cleanupL "```json\n1\n```".data = trimL "1".data := by
  refine ⟨?_, ?_, ?_⟩
  · exact (claim5_fence_stripping "txt" "1"
      (by decide) (by decide) (by decide)).trans (by rfl)
  · exact (claim5_fence_stripping "json5" "1"
      (by decide) (by decide) (by decide)).trans (by rfl)
  · exact (claim5_fence_stripping "json" "1"
      (by decide) (by decide) (by decide)).trans (by rfl)

/-- Claim C6: wrapping any text in a json-tagged markdown fence gives
the same extraction result, success or error, as the unwrapped text,
for every parse function. -/
theorem claim6_fence_wrap_invariance (parse : List Char → Option Json)
    (t : String) :
    extract parse ("```json\n" ++ t ++ "\n```") = extract parse t := by
  by_cases ht : t.data = []
  · have ht0 : t = "" := by
      cases t with
      | mk data => cases ht; rfl
    subst ht0
    rfl
  · refine extract_eq_of_cleanup ?_ ht ?_
    · rw [String.data_append, String.data_append]
      cases h : ("```json\n").data with
      | nil => cases h
      | cons a as => simp
    · rw [String.data_append, String.data_append]
      exact cleanup_wrap t.data

/-- Claim C7: sanitization is idempotent; a record whose four fields
are strings (every BusinessResult is such a record) is returned
unchanged by sanitization, and in particular re-sanitizing the output
of sanitization changes nothing. -/
theorem claim7_sanitize_idempotent :
    (∀ r : BusinessResult, sanitizeResult (recordToJson r) = r)
    ∧ ∀ j : Json, sanitizeResult (recordToJson (sanitizeResult j)) = sanitizeResult j := by
  have h : ∀ r : BusinessResult, sanitizeResult (recordToJson r) = r := fun r => rfl
  exact ⟨h, fun j => h (sanitizeResult j)⟩

/-- Counterexample to claim C8 as stated: an upstream transport error
whose message happens to contain the substring malformed data is
propagated unchanged even though it is neither of the two parse
errors, instead of being re-signaled as the generic fetch-failed
error: the outer handler distinguishes errors by message substrings,
not by origin. -/
theorem claim8_counterexample :
    fetchModel jparse (Except.error "socket hang up while reading malformed data")
      = Except.error "socket hang up while reading malformed data"
    ∧ ("socket hang up while reading malformed data" : String) ≠ criteriaMsg
    ∧ ("socket hang up while reading malformed data" : String) ≠ malformedMsg
    ∧ ("socket hang up while reading malformed data" : String) ≠ fetchFailedMsg :=
  ⟨rfl, by decide, by decide, by decide⟩

/-- Claim C8 as amended: an error escaping the fetch is re-signaled as
the generic fetch-failed error exactly when its message is empty or
contains neither of the substrings Criteria too strict and malformed
data; a non-empty message containing one of those substrings — in
particular each of the two parse-logic error messages — is propagated
unchanged. -/
theorem claim8_error_wrapping :
    (∀ m : String, m.data ≠ [] →
        (listContains m.data "Criteria too strict".data = true ∨
         listContains m.data "malformed data".data = true) →
        wrapMsg m = m)
    ∧ (∀ m : String,
        (m.data = [] ∨ (listContains m.data "Criteria too strict".data = false ∧
          listContains m.data "malformed data".data = false)) →
        wrapMsg m = fetchFailedMsg)
    ∧ wrapMsg criteriaMsg = criteriaMsg
    ∧ wrapMsg malformedMsg = malformedMsg
    ∧ (∀ (parse : List Char → Option Json) (e : String),
        fetchModel parse (Except.error e) = Except.error (wrapMsg e))
    ∧ (∀ (parse : List Char → Option Json) (text m : String),
        extract parse text = Except.error m →
        fetchModel parse (Except.ok text) = Except.error (wrapMsg m)) := by
  refine ⟨?_, ?_, ?_, ?_, fun parse e => rfl, ?_⟩
  · intro m h1 h2
    have hde : m.data.isEmpty = false := by
      cases hd : m.data with
      | nil => exact absurd hd h1
      | cons a as => rfl
    unfold wrapMsg
    rw [if_pos]
    rw [hde, Bool.and_eq_true, Bool.or_eq_true]
    exact ⟨rfl, h2⟩
  · intro m h
    unfold wrapMsg
    rw [if_neg]
    rcases h with h | ⟨h1, h2⟩
    · have hde : m.data.isEmpty = true := by rw [h]; rfl
      rw [hde]
      simp
    · rw [h1, h2]
      simp
  · rfl
  · rfl
  · intro parse text m hex
    show (match extract parse text with
      | Except.ok rs => Except.ok rs
      | Except.error m2 => Except.error (wrapMsg m2)) = Except.error (wrapMsg m)
    rw [hex]

/-- Witness for the amended claim C8 at concrete messages: a message
containing one of the substrings passes through, one containing
neither is replaced by the generic message. -/
theorem claim8_witness :
    wrapMsg "x malformed data y" = "x malformed data y"
    ∧ wrapMsg "timeout" = fetchFailedMsg :=
  ⟨claim8_error_wrapping.1 "x malformed data y" (by decide) (Or.inr rfl),
   claim8_error_wrapping.2.1 "timeout" (Or.inr ⟨rfl, rfl⟩)⟩

/-- Claim C9: the empty response text yields a successful empty list,
both from the extraction pipeline and from the whole fetch, for every
parse function. -/
theorem claim9_empty_input (parse : List Char → Option Json) :
    extract parse "" = Except.ok []
    ∧ fetchModel parse (Except.ok "") = Except.ok [] :=
  ⟨rfl, rfl⟩

/-- Claim C10: when the truncated text parses as a JSON array, the
extraction result is exactly the filter of the element-wise sanitized
array, which is a subsequence of it (order preserved, no record
fabricated) of length at most the length of the parsed array. -/
theorem claim10_array_filter_subsequence
    (parse : List Char → Option Json) (text : String) (xs : List Json)
    (hraw : text.data ≠ [])
    (hne : truncateL (cleanupL text.data) ≠ [])
    (hparse : parse (truncateL (cleanupL text.data)) = some (Json.arr xs)) :
    extract parse text = Except.ok ((xs.map sanitizeResult).filter keepRecord)
    ∧ ((xs.map sanitizeResult).filter keepRecord).Sublist (xs.map sanitizeResult)
    ∧ ((xs.map sanitizeResult).filter keepRecord).length ≤ xs.length := by
  refine ⟨?_, List.filter_sublist _, ?_⟩
  · unfold extract
    rw [if_neg (by simpa using hraw)]
    unfold extractBody
    rw [if_neg (by simpa using hne), hparse]
    rfl
  · calc ((xs.map sanitizeResult).filter keepRecord).length
        ≤ (xs.map sanitizeResult).length := List.length_filter_le _ _
      _ = xs.length := List.length_map _ _

/-- Witness for claim C10 at a concrete response: an array of one
complete record (with a missing address, sanitized to the sentinel)
and one number, of which exactly the record survives. -/
theorem claim10_witness :
    extract jparse "[\x7b\"name\":\"A\",\"phone\":\"5\",\"website\":\"w\"\x7d,3]"
      = Except.ok [⟨"A", "5", "N/A", "w"⟩] := by
  have h := claim10_array_filter_subsequence jparse
    "[\x7b\"name\":\"A\",\"phone\":\"5\",\"website\":\"w\"\x7d,3]"
    [Json.obj [("name", Json.str "A"), ("phone", Json.str "5"),
      ("website", Json.str "w")], Json.num 3]
    (by decide) (by decide) rfl
  exact h.1.trans rfl

end LeadFinder
